import Mathlib

/-
Verification of the MyOS overlay engine against its specification.

The Python sources are shallowly embedded here:
Python strings become `Str` (lists of characters), Python dicts whose
insertion order matters become association lists, the filesystem becomes
an explicit predicate or an explicit value tree, and fallible code
returns `Except`.  Every definition is translated from the source files
`core/localBlueprintLayer.py`, `core/acl.py`, `core/config/parser.py`,
`core/project.py` and `core/importer.py`; source line references are
given at each definition.
-/

/-- Python strings are modelled as lists of characters. -/
abbrev Str := List Char

/-- Coerce a Lean string literal to the `Str` model. -/
def strL (s : String) : Str := s.data

/-- Characters treated as whitespace by Python `str.strip()`: space, tab,
newline, carriage return, vertical tab, form feed. -/
def isPySpace (c : Char) : Bool :=
  [' ', '\t', '\n', '\r', '\x0b', '\x0c'].contains c

/-- Python `str.lstrip()` (whitespace form). -/
def lstripWS (s : Str) : Str := s.dropWhile isPySpace

/-- Python `str.rstrip()` (whitespace form), by structural recursion. -/
def rstripWS : Str → Str
  | [] => []
  | c :: rest =>
      let r := rstripWS rest
      if r = [] && isPySpace c then [] else c :: r

/-- Python `str.strip()` (whitespace form). -/
def pyStrip (s : Str) : Str := lstripWS (rstripWS s)

/-- Python `str.lstrip(ch)` for a single strip character. -/
def lstripChar (ch : Char) (s : Str) : Str := s.dropWhile (· == ch)

/-- Python `str.rstrip(ch)` for a single strip character. -/
def rstripChar (ch : Char) : Str → Str
  | [] => []
  | c :: rest =>
      let r := rstripChar ch rest
      if r = [] && c == ch then [] else c :: r

/-- Python `str.strip(ch)` for a single strip character. -/
def pyStripChar (ch : Char) (s : Str) : Str := lstripChar ch (rstripChar ch s)

/-- Python `str.lower()` (ASCII case folding suffices for every use here). -/
def lowerStr (s : Str) : Str := s.map Char.toLower

/-- Python `s.split(sep)` for a one-character separator: `"".split(sep)`
is `[""]`, and separators at the ends produce empty parts. -/
def pySplit (sep : Char) : Str → List Str
  | [] => [[]]
  | c :: rest =>
      if c = sep then [] :: pySplit sep rest
      else
        match pySplit sep rest with
        | [] => [[c]]
        | s :: ss => (c :: s) :: ss

/-- Boolean test that `s` starts with `pat` (Python `str.startswith`). -/
def strStarts : Str → Str → Bool
  | [], _ => true
  | _ :: _, [] => false
  | p :: ps, c :: cs => p == c && strStarts ps cs

/-- Python `pat in s` substring test. -/
def containsSub (pat : Str) : Str → Bool
  | [] => pat.isEmpty
  | s@(_ :: rest) => strStarts pat s || containsSub pat rest

/-- Python `s.find(pat)`: index of the first occurrence, `-1` if absent. -/
def pyFindSub (pat : Str) : Str → Int
  | [] => if pat.isEmpty then 0 else -1
  | s@(_ :: rest) =>
      if strStarts pat s then 0
      else
        let r := pyFindSub pat rest
        if r < 0 then -1 else r + 1

/-- Python `s.split(pat, 1)` when `pat` occurs in `s`: the pieces before and
after the first occurrence.  When `pat` is absent the whole string is
returned with an empty remainder (the callers guard occurrence first). -/
def splitOnceSub (pat : Str) : Str → Str × Str
  | [] => ([], [])
  | s@(c :: rest) =>
      if strStarts pat s && !pat.isEmpty then ([], s.drop pat.length)
      else
        let (a, b) := splitOnceSub pat rest
        (c :: a, b)

/-- Worker for `pyReplace`: scans the string; a positive `skip` count drops
characters belonging to an occurrence that has already been replaced. -/
def pyReplaceGo (pat repl : Str) : Str → Nat → Str
  | [], _ => []
  | _ :: rest, skip + 1 => pyReplaceGo pat repl rest skip
  | c :: rest, 0 =>
      if strStarts pat (c :: rest) && !pat.isEmpty then
        repl ++ pyReplaceGo pat repl rest (pat.length - 1)
      else
        c :: pyReplaceGo pat repl rest 0

/-- Python `s.replace(pat, repl)`: left-to-right, non-overlapping.  (For the
empty pattern, which no caller uses, this model is the identity.) -/
def pyReplace (pat repl s : Str) : Str := pyReplaceGo pat repl s 0

/-- One hexadecimal digit value (code points 0-9, a-f, A-F), `none` when
the character is not a hex digit. -/
def hexVal (c : Char) : Option Nat :=
  let n := c.toNat
  if 48 ≤ n && n ≤ 57 then some (n - 48)
  else if 97 ≤ n && n ≤ 102 then some (n - 87)
  else if 65 ≤ n && n ≤ 70 then some (n - 55)
  else none

/-- Model of `urllib.parse.unquote`: decodes `%XX` hex escapes and leaves
everything else (including malformed escapes) in place.  Multi-byte UTF-8
escape sequences are decoded byte by byte, a simplification that no claim
depends on (all claim inputs are ASCII). -/
def pyUnquote : Str → Str
  | '%' :: a :: b :: rest =>
      match hexVal a, hexVal b with
      | some x, some y => Char.ofNat (16 * x + y) :: pyUnquote rest
      | _, _ => '%' :: pyUnquote (a :: b :: rest)
  | c :: rest => c :: pyUnquote rest
  | [] => []

/-- Python `", ".join(xs)`-style joining with a separator string. -/
def joinStr (sep : Str) : List Str → Str
  | [] => []
  | [x] => x
  | x :: xs => x ++ sep ++ joinStr sep xs

/-- Decidable equality for `Except`, used to evaluate results of fallible
operations on concrete inputs. -/
instance {e a : Type} [DecidableEq e] [DecidableEq a] : DecidableEq (Except e a) := fun
  | .error x, .error y => decidable_of_iff (x = y) (by simp)
  | .error _, .ok _ => isFalse (by simp)
  | .ok _, .error _ => isFalse (by simp)
  | .ok x, .ok y => decidable_of_iff (x = y) (by simp)

/-- Ordered-dictionary lookup over an association list (Python `dict.get`). -/
def lookupKV {α : Type} : List (Str × α) → Str → Option α
  | [], _ => none
  | (k, v) :: rest, key => if k = key then some v else lookupKV rest key

/-- Ordered-dictionary assignment `d[key] = v`: overwrite in place when the
key exists (Python dicts keep the original position), else append. -/
def setKV {α : Type} : List (Str × α) → Str → α → List (Str × α)
  | [], key, v => [(key, v)]
  | (k, w) :: rest, key, v =>
      if k = key then (k, v) :: rest else (k, w) :: setKV rest key v

/-
ACL policy, from core/acl.py.
-/

/-- acl.py lines 11-12: `_normalize_role`. -/
def normalizeRole (name : Str) : Str := lowerStr (pyStrip name)

/-- acl.py lines 15-21: `_normalize_path`. -/
def normalizePath (path : Str) : Str :=
  let n := pyStrip path
  if n = strL "/*" then n
  else
    let n := if strStarts (strL "/") n then n else '/' :: n
    rstripChar '/' n

/-- acl.py lines 24-27: `PermissionRule`; the rights set is modelled as a
list (membership is all that is ever used). -/
structure PermissionRule where
  path : Str
  rights : List Str
deriving DecidableEq, Repr

/-- acl.py lines 30-34: `ACLPolicy` (the `users` table plays no role in the
claims about `can_access`). -/
structure ACLPolicy where
  roles : List Str
  permissions : List (Str × List PermissionRule)
deriving DecidableEq, Repr

/-- acl.py lines 60-73: `ACLPolicy.can_access`. -/
def canAccess (pol : ACLPolicy) (role path right : Str) : Bool :=
  let roleKey := normalizeRole role
  let pathKey := normalizePath path
  let rightKey := lowerStr (pyStrip right)
  if !(pol.roles.contains roleKey) then false
  else
    let rules := (lookupKV pol.permissions roleKey).getD []
    rules.any fun rule =>
      (rule.path = strL "/*" || rule.path = pathKey
          || strStarts (rule.path ++ strL "/") pathKey)
      && (rule.rights.contains (strL "*") || rule.rights.contains rightKey)

/-- Union of two rights sets, modelled on lists (acl.py line 196,
`set.union`; the order of the result is irrelevant to every claim). -/
def rightsUnion (a b : List Str) : List Str :=
  b.foldl (fun acc r => if acc.contains r then acc else acc ++ [r]) a

/-- acl.py lines 189-199: `_expand_rules`.  Note that the `{folder}` token is
DETECTED case-insensitively but REPLACED only in the exact spellings
`{Folder}` and `{folder}`. -/
def expandRules (role : Str) (rules : List (Str × List Str)) :
    List (Str × List Str) :=
  rules.foldl
    (fun expanded pr =>
      let path := pr.1
      let path :=
        if containsSub (strL "{folder}") (lowerStr path) then
          pyReplace (strL "{folder}") role (pyReplace (strL "{Folder}") role path)
        else path
      let np := normalizePath path
      match lookupKV expanded np with
      | some rs => setKV expanded np (rightsUnion rs pr.2)
      | none => expanded ++ [(np, pr.2)])
    []

/-
Blueprint overlay, from core/localBlueprintLayer.py.
-/

/-- The embryo tree: a recursive mapping from child name to subtree
(localBlueprintLayer.py, `embryo_tree`). -/
inductive ETree where
  | node : List (Str × ETree) → ETree

/-- localBlueprintLayer.py lines 334-346: walk the embryo tree along path
parts; the result is whether every part was found. -/
def treeWalk : List (Str × ETree) → List Str → Bool
  | _, [] => true
  | node, p :: rest =>
      match lookupKV node p with
      | some (ETree.node cs) => treeWalk cs rest
      | none => false

/-- State of a mounted `Blueprint` as far as `is_embryo` is concerned: the
immutable embryo tree, the mutable embryo cache, and the physical
filesystem at call time (a predicate on project-relative paths). -/
structure BPState where
  embryoTree : List (Str × ETree)
  cache : List (Str × Bool)
  physExists : Str → Bool

/-- localBlueprintLayer.py lines 310-312: `_physical_path`, reduced to the
project-relative key it tests for existence. -/
def physKey (fusePath : Str) : Str := lstripChar '/' fusePath

/-- localBlueprintLayer.py lines 314-349: `Blueprint.is_embryo`.  Returns
the boolean answer together with the state holding the updated cache. -/
def isEmbryo (st : BPState) (path : Str) : Bool × BPState :=
  if path = [] then (false, st)
  else if st.physExists (physKey path) then
    (false, { st with cache := setKV st.cache path false })
  else
    match lookupKV st.cache path with
    | some b => (b, st)
    | none =>
        let res := treeWalk st.embryoTree (pySplit '/' path)
        (res, { st with cache := setKV st.cache path res })

/-- localBlueprintLayer.py lines 257-267: `Blueprint._can_write_embryo`.
`aclEnabled` is `(project_root / ".MyOS" / "ACLs.md").exists()` (line 222)
and `aclRoles` is the resolved role set of the current user. -/
def canWriteEmbryo (aclEnabled : Bool) (aclRoles : List Str)
    (policy : ACLPolicy) (relPath : Str) : Bool :=
  if !aclEnabled then true
  else if aclRoles = [] then false
  else
    let path := '/' :: pyStripChar '/' relPath
    aclRoles.any fun role => canAccess policy role path (strL "write")

/-- A directory entry of the real filesystem, as seen by the template
scanner: a name, whether it is a directory, and its children. -/
inductive FSEntry where
  | mk : Str → Bool → List FSEntry → FSEntry

/-- Name of a filesystem entry. -/
def FSEntry.name : FSEntry → Str
  | .mk n _ _ => n

/-- Whether a filesystem entry is a directory. -/
def FSEntry.isDir : FSEntry → Bool
  | .mk _ d _ => d

/-- localBlueprintLayer.py lines 284-300: `_load_template_tree` and
`_load_embryo_tree_sub`.  Both keep exactly the sub-DIRECTORIES of each
level (`item.is_dir()`); no other filtering happens. -/
def loadList : List FSEntry → List (Str × ETree)
  | [] => []
  | .mk n d cs :: rest =>
      (if d then [(n, ETree.node (loadList cs))] else []) ++ loadList rest

/-- localBlueprintLayer.py lines 302-308: `_merge_trees`, merging `new`
into `combined`: recurse on keys already present, append missing keys. -/
def mergeInto : List (Str × ETree) → List (Str × ETree) → List (Str × ETree)
  | combined, [] => combined
  | combined, (k, ETree.node vcs) :: rest =>
      let combined1 :=
        match lookupKV combined k with
        | some (ETree.node wcs) => setKV combined k (ETree.node (mergeInto wcs vcs))
        | none => combined ++ [(k, ETree.node vcs)]
      mergeInto combined1 rest

/-- localBlueprintLayer.py lines 269-282: `_load_embryo_tree`.  Each
configured template contributes its scanned tree; a missing template
directory (`none`) is skipped with a warning. -/
def loadEmbryoTree (tpls : List (Option (List FSEntry))) : List (Str × ETree) :=
  tpls.foldl
    (fun combined t =>
      match t with
      | none => combined
      | some entries => mergeInto combined (loadList entries))
    []

/-
Birth Clinic, from core/localBlueprintLayer.py lines 95-165
(`BirthClinic.find_template_source`).
-/

/-- Failure cases of `find_template_source`; in the Python source each is a
`ValueError`.  The spec groups the middle three as `INVALID_PATH`. -/
inductive BirthErr where
  | emptyPath
  | traversal
  | absolute
  | hidden
  | noTemplate
deriving DecidableEq, Repr

/-- Whether a failure is the INVALID_PATH kind of the spec taxonomy. -/
def BirthErr.isInvalidPath : BirthErr → Bool
  | .traversal | .absolute | .hidden => true
  | _ => false

/-- localBlueprintLayer.py lines 102-112: the explicit percent-decodings of
the key path characters, followed by general `urllib.parse.unquote`. -/
def decodeEmbryoPath (s : Str) : Str :=
  pyUnquote
    (pyReplace (strL "%2E") (strL ".")
      (pyReplace (strL "%2e") (strL ".")
        (pyReplace (strL "%5C") (strL "\\")
          (pyReplace (strL "%5c") (strL "\\")
            (pyReplace (strL "%2F") (strL "/")
              (pyReplace (strL "%2f") (strL "/") s))))))

/-- localBlueprintLayer.py line 116: backslashes become forward slashes. -/
def normalizeSeps (s : Str) : Str := s.map fun c => if c = '\\' then '/' else c

/-- The decoded and separator-normalized form of an embryo path. -/
def normalizedEmbryoPath (s : Str) : Str := normalizeSeps (decodeEmbryoPath s)

/-- localBlueprintLayer.py lines 127-131: the absolute-path test (Unix
absolute, Windows drive, UNC). -/
def isAbsoluteForm (n : Str) : Bool :=
  strStarts (strL "/") n
    || (decide (n.length > 2) && n.get? 1 == some ':' && n.get? 2 == some '/')
    || (decide (n.length > 1) && n.get? 0 == some '/' && n.get? 1 == some '/')

/-- localBlueprintLayer.py lines 136-142: the hidden-segment test. -/
def hasHiddenSegment (n : Str) : Bool :=
  (pySplit '/' n).any fun part => !part.isEmpty && part.head? == some '.'

/-- localBlueprintLayer.py lines 98-142: the validation stage of
`find_template_source`, performed before any filesystem access.  On
success it returns the normalized path. -/
def validateEmbryoPath (embryoPath : Str) : Except BirthErr Str :=
  if embryoPath = [] then .error .emptyPath
  else
    let normalized := normalizedEmbryoPath embryoPath
    if containsSub (strL "..") normalized then .error .traversal
    else if isAbsoluteForm normalized then .error .absolute
    else if hasHiddenSegment normalized then .error .hidden
    else .ok normalized

/-- localBlueprintLayer.py lines 154-163: starting from `base`
(= `templates_dir / template_name`), join each part in turn, checking
existence after each join; `pathlib` drops empty components.  `fs` is the
filesystem: existence of a path given by its segments below the templates
directory.  The final existence check of the `for`-`else` clause is kept. -/
def descend (fs : List Str → Bool) (base : List Str) : List Str → Option (List Str)
  | [] => if fs base then some base else none
  | p :: rest =>
      let nxt := if p = [] then base else base ++ [p]
      if fs nxt then descend fs nxt rest else none

/-- localBlueprintLayer.py lines 147-165: iterate the configured template
names, skipping invalid names, returning the first template that contains
all the path parts. -/
def searchTemplates (fs : List Str → Bool) (parts : List Str) :
    List Str → Except BirthErr (List Str)
  | [] => .error .noTemplate
  | t :: ts =>
      if t = [] || containsSub (strL "..") t || t.contains '/' then
        searchTemplates fs parts ts
      else
        match descend fs [t] parts with
        | some c => .ok c
        | none => searchTemplates fs parts ts

/-- localBlueprintLayer.py lines 95-165: `BirthClinic.find_template_source`.
`templateNames` is `self.blueprint.template_names`; the returned path is
given by its segments relative to `templates_dir`. -/
def findTemplateSource (templateNames : List Str) (fs : List Str → Bool)
    (embryoPath : Str) : Except BirthErr (List Str) :=
  match validateEmbryoPath embryoPath with
  | .error e => .error e
  | .ok normalized =>
      let parts := pySplit '/' (pyStripChar '/' normalized)
      searchTemplates fs parts templateNames

/-
Markdown config parsing, from core/config/parser.py.
-/

/-- A parsed content line (`_parse_line` result): a key/value pair (a
one-entry Python dict whose value is always a list of strings), a bare
string, or a comma list of strings. -/
inductive Item where
  | kv : Str → List Str → Item
  | str : Str → Item
  | list : List Str → Item
deriving DecidableEq, Repr

/-- An element of a flattened section payload: a string or an embedded
key/value dict. -/
inductive Elem where
  | estr : Str → Elem
  | ekv : Str → List Str → Elem
deriving DecidableEq, Repr

/-- A finalized section payload: a merged dict or a flattened list. -/
inductive Payload where
  | pdict : List (Str × List Str) → Payload
  | plist : List Elem → Payload
deriving DecidableEq, Repr

/-- parser.py lines 114-153: `_parse_line` on an already-stripped line;
`none` is the invalid case (Python `None`). -/
def parseLine (line0 : Str) : Option Item :=
  let line := if line0.contains '#' then pyStrip (line0.takeWhile (· ≠ '#')) else line0
  if line = [] then none
  else if containsSub (strL ": ") line then
    let kv := splitOnceSub (strL ": ") line
    let key := pyStrip kv.1
    let value := pyStrip kv.2
    if value.contains ',' then
      some (.kv key ((pySplit ',' value).map pyStrip))
    else some (.kv key [value])
  else if strStarts (strL "* ") line then
    some (.str (pyStrip (line.drop 2)))
  else if line.contains ',' then
    let items := (pySplit ',' line).map pyStrip
    if items.length = 1 && !(items.headD []).isEmpty then
      some (.str (items.headD []))
    else some (.list items)
  else if !line.isEmpty && !line.contains ' ' then
    some (.str line)
  else none

/-- parser.py lines 155-189: `_finalize_items`.  All dicts merge into one
dict; any strings or lists flatten into one list (list items contribute
their strings one by one, dict items stay embedded).  The remaining
branches of the Python code are unreachable for nonempty item lists. -/
def finalizeItems (items : List Item) : Payload :=
  if items = [] then .plist []
  else
    let hasD := items.any fun i => match i with | .kv _ _ => true | _ => false
    let hasS := items.any fun i => match i with | .str _ => true | _ => false
    let hasL := items.any fun i => match i with | .list _ => true | _ => false
    if hasD && !hasS && !hasL then
      .pdict (items.foldl
        (fun acc i => match i with | .kv k vs => setKV acc k vs | _ => acc) [])
    else if hasS || hasL then
      .plist (items.foldl
        (fun acc i =>
          match i with
          | .list xs => acc ++ xs.map Elem.estr
          | .str s => acc ++ [Elem.estr s]
          | .kv k vs => acc ++ [Elem.ekv k vs]) [])
    else .plist []

/-- parser.py lines 40-41: the header-form property test (a hash line whose
first `": "` comes after its first space). -/
def isPropLine (s : Str) : Bool :=
  strStarts (strL "#") s && s.contains ' ' && containsSub (strL ": ") s
    && decide (pyFindSub (strL ": ") s > pyFindSub (strL " ") s)

/-- parser.py line 52: the section-header test (checked after the
property-line form). -/
def isHeaderLine (s : Str) : Bool :=
  strStarts (strL "#") s && s.contains ' '

/-- parser.py lines 58-59: the section name of a header line: everything
from the first space on, stripped. -/
def headerName (s : Str) : Str :=
  pyStrip (s.drop (pyFindSub (strL " ") s).toNat)

/-- Parsing state: the result dict, the current section (Python's
`current_section`; the Python `state` variable equals PARSING exactly when
this is `some`, as both are always assigned together), and the collected
items. -/
structure PState where
  result : List (Str × Payload)
  cur : Option Str
  items : List Item
deriving DecidableEq, Repr

/-- parser.py lines 54-55, 69-70, 81-82, 88-89: store the current section
into the result when it has items. -/
def finalizeInto (st : PState) : List (Str × Payload) :=
  match st.cur with
  | some sec => if st.items ≠ [] then setKV st.result sec (finalizeItems st.items)
                else st.result
  | none => st.result

/-- parser.py lines 35-85: the body of the `for line in stream` loop. -/
def processLine (st : PState) (rawLine : Str) : PState :=
  let line := rstripChar '\n' rawLine
  let stripped := pyStrip line
  if isPropLine stripped then
    match st.cur with
    | some _ =>
        let contentPart := pyStrip (lstripChar '#' stripped)
        match parseLine contentPart with
        | some item => { st with items := st.items ++ [item] }
        | none => st
    | none => st
  else if isHeaderLine stripped then
    { result := finalizeInto st, cur := some (headerName stripped), items := [] }
  else
    match st.cur with
    | some _ =>
        if stripped = [] then
          { result := finalizeInto st, cur := none, items := [] }
        else
          match parseLine stripped with
          | some item => { st with items := st.items ++ [item] }
          | none => { result := finalizeInto st, cur := none, items := [] }
    | none => st

/-- parser.py lines 20-91: `MarkdownConfigParser.parse_stream` over the
list of input lines.  A total function: the parser halts on every finite
input, and all the string operations it uses are total. -/
def parseStream (lines : List Str) : List (Str × Payload) :=
  finalizeInto (lines.foldl processLine ⟨[], none, []⟩)

/-- parser.py lines 191-201: `find_inherit`; on a list payload the first
embedded dict with an `inherit` key wins. -/
def findInherit (payload : Payload) : Option (List Str) :=
  match payload with
  | .pdict entries => lookupKV entries (strL "inherit")
  | .plist elems =>
      elems.findSome? fun e =>
        match e with
        | .ekv k vs => if k = strL "inherit" then some vs else none
        | .estr _ => none

/-
Project configuration, from core/project.py.
-/

/-- Whether a Python value is falsy; a payload is falsy when it is an empty
list or empty dict. -/
def payloadFalsy : Payload → Bool
  | .pdict [] => true
  | .plist [] => true
  | _ => false

/-- A project as far as `propagate_config` is concerned: its path, the raw
content of its `Config.md` (`none` when the file is missing), and the
in-memory `config_data`. -/
structure Proj where
  path : Str
  configFile : Option Str
  configData : List (Str × Payload)
deriving DecidableEq, Repr

/-- project.py lines 115-127: `_load_config_data`: parse `Config.md` when
present, else an empty dict.  File content is split into lines on the
newline character; the trailing empty line this produces for
newline-terminated files is neutral (a blank line finalizes the section
exactly as the end of input does). -/
def loadConfigData (p : Proj) : Proj :=
  { p with configData :=
      match p.configFile with
      | some content => parseStream (pySplit '\n' content)
      | none => [] }

/-- project.py lines 197-225: `get_inherit_status`. -/
def getInheritStatus (p : Proj) (sectionName : Str) : Str :=
  let d := if p.configData = [] then (loadConfigData p).configData else p.configData
  match lookupKV d sectionName with
  | none => strL "dynamic"
  | some payload =>
      match findInherit payload with
      | none => strL "dynamic"
      | some [] => strL "dynamic"
      | some (v :: _) =>
          let iv := lowerStr v
          if iv = strL "fix" || iv = strL "dynamic" || iv = strL "not" then iv
          else strL "dynamic"

/-- project.py lines 453-490: `_save_config_data` rendering of
`config_data` into `Config.md` content (values are always lists of
strings in parsed data, so the join branch always applies). -/
def renderConfig (data : List (Str × Payload)) : Str :=
  data.foldl
    (fun content sec =>
      let body :=
        match sec.2 with
        | .plist elems =>
            elems.foldl
              (fun acc e =>
                match e with
                | .ekv k vs => acc ++ k ++ strL ": " ++ joinStr (strL ", ") vs ++ strL "\n"
                | .estr s => acc ++ s ++ strL "\n")
              []
        | .pdict entries =>
            entries.foldl
              (fun acc kv =>
                acc ++ kv.1 ++ strL ": " ++ joinStr (strL ", ") kv.2 ++ strL "\n")
              []
      content ++ strL "# " ++ sec.1 ++ strL "\n" ++ body ++ strL "\n")
    []

/-- Outcome of propagation for one child: `_update_from_parent` returning
True / False, or the `skipped_fix` marker. -/
inductive PropStatus where
  | ok
  | failed
  | skippedFix
deriving DecidableEq, Repr

/-- project.py lines 436-451 and 453-490: `_update_from_parent` followed by
`_save_config_data`.  Re-reads the child's `Config.md`, overwrites the
section with the parent's payload and (unless `dry_run`) rewrites the
file.  Returns the status and the updated child. -/
def updateFromParent (child : Proj) (parentData : List (Str × Payload))
    (sectionName : Str) (dryRun : Bool) : PropStatus × Proj :=
  match lookupKV parentData sectionName with
  | none => (.failed, child)
  | some payload =>
      if payloadFalsy payload then (.failed, child)
      else
        let child := loadConfigData child
        let newData := setKV child.configData sectionName payload
        let child := { child with configData := newData }
        if dryRun then (.ok, child)
        else if newData = [] then (.ok, { child with configFile := none })
        else (.ok, { child with configFile := some (renderConfig newData) })

/-- project.py lines 405-434: `propagate_config`.  The direct child
projects are passed in explicitly (`get_child_projects` scans the
directory; each child is constructed with its `config_data` loaded).
Returns the results dict and the children after propagation. -/
def propagateConfig (parent : Proj) (children : List Proj)
    (sectionName : Str) (dryRun : Bool) :
    List (Str × PropStatus) × List Proj :=
  let parent := loadConfigData parent
  match lookupKV parent.configData sectionName with
  | none => ([], children)
  | some _ =>
      let step := children.map fun child =>
        if getInheritStatus child sectionName = strL "fix" then
          ((child.path, PropStatus.skippedFix), child)
        else
          let r := updateFromParent child parent.configData sectionName dryRun
          ((child.path, r.1), r.2)
      (step.map Prod.fst, step.map Prod.snd)

/-
Importer, from core/importer.py lines 157-166 (`_safe_extract_zip`).
-/

/-- Lexical model of `pathlib.Path.resolve()` on an absolute path given by
its segments: `..` pops a segment (never above the root), `.` and empty
segments vanish.  (The destination is a fresh temporary directory, so no
symbolic links are involved.) -/
def resolveSegs (segs : List Str) : List Str :=
  segs.foldl
    (fun acc seg =>
      if seg = strL ".." then acc.dropLast
      else if seg = strL "." || seg = [] then acc
      else acc ++ [seg])
    []

/-- String form of an absolute path given by its segments (`str(path)`). -/
def renderAbs (segs : List Str) : Str :=
  '/' :: joinStr (strL "/") segs

/-- The two rejection cases of `_safe_extract_zip`. -/
inductive ZipErr where
  | unsafeName
  | traversal
deriving DecidableEq, Repr

/-- importer.py lines 157-166: `_safe_extract_zip`.  `dest` is the
extraction directory as absolute segments; each member name is checked,
then the resolved join is compared BY STRING PREFIX against the resolved
destination.  Returns the resolved target paths of the extracted members. -/
def safeExtractZip (dest : List Str) : List Str → Except ZipErr (List (List Str))
  | [] => .ok []
  | name :: rest =>
      if strStarts (strL "/") name || strStarts (strL "\\") name || name.contains ':' then
        .error .unsafeName
      else
        let memberPath := resolveSegs (dest ++ pySplit '/' name)
        if !strStarts (renderAbs (resolveSegs dest)) (renderAbs memberPath) then
          .error .traversal
        else
          match safeExtractZip dest rest with
          | .error e => .error e
          | .ok r => .ok (memberPath :: r)

/-- Whether path `p` (as segments) is inside directory `d` (as segments):
`d` is a leading run of `p`'s segments. -/
def insideDir (d p : List Str) : Bool :=
  match d, p with
  | [], _ => true
  | _, [] => false
  | x :: xs, y :: ys => x = y && insideDir xs ys

/-- All node names of an embryo tree, at every depth. -/
def nodeNames : List (Str × ETree) → List Str
  | [] => []
  | (n, ETree.node cs) :: rest => n :: (nodeNames cs ++ nodeNames rest)

/-- Names of an embryo subtree. -/
def nodeNamesT : ETree → List Str
  | ETree.node cs => nodeNames cs

/-- All directory names of a filesystem listing, at every depth, descending
only into directories (as the scanner does). -/
def dirNames : List FSEntry → List Str
  | [] => []
  | .mk n d cs :: rest => (if d then n :: dirNames cs else []) ++ dirNames rest

/-
General lemmas about the string model.
-/

/-- A start-of-string match is exactly an append decomposition. -/
theorem strStarts_iff_exists (p : Str) : ∀ s, strStarts p s = true ↔ ∃ t, s = p ++ t := by
  induction p with
  | nil => intro s; simp [strStarts]
  | cons a ps ih =>
      intro s
      cases s with
      | nil => simp [strStarts]
      | cons c cs =>
          simp only [strStarts, Bool.and_eq_true, beq_iff_eq, ih, List.cons_append,
            List.cons.injEq]
          constructor
          · rintro ⟨rfl, t, rfl⟩; exact ⟨t, rfl, rfl⟩
          · rintro ⟨t, rfl, rfl⟩; exact ⟨rfl, t, rfl⟩

/-- A substring match is exactly a two-sided append decomposition. -/
theorem containsSub_iff_exists (pat : Str) :
    ∀ s, containsSub pat s = true ↔ ∃ a b, s = a ++ pat ++ b := by
  intro s
  induction s with
  | nil =>
      simp only [containsSub, List.isEmpty_iff]
      constructor
      · rintro rfl; exact ⟨[], [], rfl⟩
      · rintro ⟨a, b, h⟩
        rcases List.append_eq_nil.mp h.symm with ⟨h1, h2⟩
        exact (List.append_eq_nil.mp h1).2
  | cons c rest ih =>
      simp only [containsSub, Bool.or_eq_true, strStarts_iff_exists, ih]
      constructor
      · rintro (⟨t, ht⟩ | ⟨a, b, rfl⟩)
        · exact ⟨[], t, by simp [ht]⟩
        · exact ⟨c :: a, b, rfl⟩
      · rintro ⟨a, b, h⟩
        cases a with
        | nil => exact Or.inl ⟨b, by simpa using h⟩
        | cons x xs =>
            simp only [List.cons_append, List.cons.injEq] at h
            exact Or.inr ⟨xs, b, h.2⟩

/-- Every character of a matched substring occurs in the string. -/
theorem mem_of_containsSub {pat s : Str} {c : Char}
    (h : containsSub pat s = true) (hc : c ∈ pat) : c ∈ s := by
  rcases (containsSub_iff_exists pat s).mp h with ⟨a, b, rfl⟩
  simp [hc]

/-- `pySplit` never returns an empty list of parts. -/
theorem pySplit_ne_nil (sep : Char) : ∀ l, pySplit sep l ≠ [] := by
  intro l
  cases l with
  | nil => simp [pySplit]
  | cons c rest =>
      simp only [pySplit]
      by_cases h : c = sep
      · simp [h]
      · simp only [if_neg h]
        cases pySplit sep rest <;> simp

/-- The first part produced by `pySplit` is an initial run of the string. -/
theorem pySplit_head_decomp (sep : Char) :
    ∀ l, ∃ h t, pySplit sep l = h :: t ∧ ∃ r, l = h ++ r := by
  intro l
  induction l with
  | nil => exact ⟨[], [], rfl, [], rfl⟩
  | cons c rest ih =>
      by_cases hc : c = sep
      · exact ⟨[], pySplit sep rest, by simp [pySplit, hc], c :: rest, rfl⟩
      · rcases ih with ⟨h, t, hsplit, r, hr⟩
        refine ⟨c :: h, t, ?_, r, by simp [hr]⟩
        simp [pySplit, hc, hsplit]

/-- Every part produced by `pySplit` is a substring of the input. -/
theorem containsSub_of_mem_pySplit (sep : Char) :
    ∀ l x, x ∈ pySplit sep l → containsSub x l = true := by
  intro l
  induction l with
  | nil =>
      intro x hx
      simp only [pySplit, List.mem_singleton] at hx
      simp [hx, containsSub]
  | cons c rest ih =>
      intro x hx
      by_cases hc : c = sep
      · simp only [pySplit, if_pos hc] at hx
        rcases List.mem_cons.mp hx with rfl | hx
        · simp [containsSub, strStarts]
        · have := ih x hx
          simp [containsSub, this]
      · rcases pySplit_head_decomp sep rest with ⟨h, t, hsplit, r, hr⟩
        simp only [pySplit, if_neg hc, hsplit] at hx
        rcases List.mem_cons.mp hx with rfl | hx
        · have hstart : strStarts (c :: h) (c :: rest) = true := by
            simp only [strStarts, Bool.and_eq_true, beq_self_eq_true, true_and]
            exact (strStarts_iff_exists h rest).mpr ⟨r, hr⟩
          simp [containsSub, hstart]
        · have : x ∈ pySplit sep rest := by rw [hsplit]; exact List.mem_cons_of_mem _ hx
          have := ih x this
          simp [containsSub, this]

/-- Parts produced by `pySplit` never contain the separator. -/
theorem sep_not_mem_of_mem_pySplit (sep : Char) :
    ∀ l x, x ∈ pySplit sep l → sep ∉ x := by
  intro l
  induction l with
  | nil =>
      intro x hx
      simp only [pySplit, List.mem_singleton] at hx
      simp [hx]
  | cons c rest ih =>
      intro x hx
      by_cases hc : c = sep
      · simp only [pySplit, if_pos hc] at hx
        rcases List.mem_cons.mp hx with rfl | hx
        · simp
        · exact ih x hx
      · rcases pySplit_head_decomp sep rest with ⟨h, t, hsplit, r, hr⟩
        simp only [pySplit, if_neg hc, hsplit] at hx
        have hh : h ∈ pySplit sep rest := by rw [hsplit]; exact List.mem_cons_self _ _
        rcases List.mem_cons.mp hx with rfl | hx
        · intro hmem
          rcases List.mem_cons.mp hmem with rfl | hmem
          · exact hc rfl
          · exact ih h hh hmem
        · have : x ∈ pySplit sep rest := by rw [hsplit]; exact List.mem_cons_of_mem _ hx
          exact ih x this

/-- Dropping leading separators only removes leading empty parts. -/
theorem pySplit_lstrip (sep : Char) :
    ∀ l, ∃ k, pySplit sep l = List.replicate k [] ++ pySplit sep (lstripChar sep l) := by
  intro l
  induction l with
  | nil => exact ⟨0, rfl⟩
  | cons c rest ih =>
      by_cases hc : c = sep
      · rcases ih with ⟨k, hk⟩
        refine ⟨k + 1, ?_⟩
        have : lstripChar sep (c :: rest) = lstripChar sep rest := by
          simp [lstripChar, List.dropWhile_cons, hc]
        rw [this]
        simp only [pySplit, if_pos hc, hk, List.replicate_succ, List.cons_append]
      · refine ⟨0, ?_⟩
        have : lstripChar sep (c :: rest) = c :: rest := by
          simp [lstripChar, List.dropWhile_cons, hc]
        rw [this]
        simp

/-- Dropping trailing separators only removes trailing empty parts. -/
theorem pySplit_rstrip (sep : Char) :
    ∀ l, ∃ k, pySplit sep l = pySplit sep (rstripChar sep l) ++ List.replicate k [] := by
  intro l
  induction l with
  | nil => exact ⟨0, rfl⟩
  | cons c rest ih =>
      rcases ih with ⟨k, hk⟩
      by_cases hend : rstripChar sep rest = [] ∧ c = sep
      · refine ⟨k + 1, ?_⟩
        have h1 : rstripChar sep (c :: rest) = [] := by
          simp [rstripChar, hend.1, hend.2]
        rw [h1]
        rw [hend.1] at hk
        simp only [pySplit, if_pos hend.2, hk]
        simp [List.replicate_succ]
      · have h1 : rstripChar sep (c :: rest) = c :: rstripChar sep rest := by
          simp only [rstripChar]
          rw [if_neg]
          simp only [Bool.and_eq_true, decide_eq_true_eq, beq_iff_eq, not_and]
          exact fun ha hb => hend ⟨ha, hb⟩
        rw [h1]
        by_cases hc : c = sep
        · have hne : rstripChar sep rest ≠ [] := by
            intro hnil; exact hend ⟨hnil, hc⟩
          refine ⟨k, ?_⟩
          simp only [pySplit, if_pos hc, hk, List.cons_append]
        · rcases pySplit_head_decomp sep (rstripChar sep rest) with ⟨h2, t2, hsplit2, _⟩
          rcases pySplit_head_decomp sep rest with ⟨h3, t3, hsplit3, _⟩
          rw [hsplit2, hsplit3] at hk
          simp only [List.cons_append, List.cons.injEq] at hk
          refine ⟨k, ?_⟩
          simp only [pySplit, if_neg hc, hsplit2, hsplit3, hk.1, hk.2, List.cons_append]

/-- Nonempty parts of the split of a char-stripped string are parts of the
split of the original string. -/
theorem mem_pySplit_of_strip (sep : Char) (l x : Str)
    (hx : x ∈ pySplit sep (pyStripChar sep l)) : x ∈ pySplit sep l := by
  rcases pySplit_lstrip sep (rstripChar sep l) with ⟨k1, hk1⟩
  rcases pySplit_rstrip sep l with ⟨k2, hk2⟩
  have h1 : x ∈ pySplit sep (rstripChar sep l) := by
    rw [hk1]
    exact List.mem_append_right _ hx
  rw [hk2]
  exact List.mem_append_left _ h1

/-- Inversion of successful validation: the input is nonempty, and all
three rejection tests are false on its normalized form. -/
theorem validateEmbryoPath_ok {s n : Str} (h : validateEmbryoPath s = .ok n) :
    s ≠ [] ∧ n = normalizedEmbryoPath s ∧
      containsSub (strL "..") n = false ∧ isAbsoluteForm n = false ∧
      hasHiddenSegment n = false := by
  by_cases hs : s = []
  · simp [validateEmbryoPath, hs] at h
  · simp only [validateEmbryoPath, if_neg hs] at h
    by_cases h1 : containsSub (strL "..") (normalizedEmbryoPath s) = true
    · simp [h1] at h
    · by_cases h2 : isAbsoluteForm (normalizedEmbryoPath s) = true
      · simp [h1, h2] at h
      · by_cases h3 : hasHiddenSegment (normalizedEmbryoPath s) = true
        · simp [h1, h2, h3] at h
        · simp only [h1, h2, h3, Bool.false_eq_true, if_false, Except.ok.injEq] at h
          exact ⟨hs, h.symm, by simp_all, by simp_all, by simp_all⟩

/-- Validation failures: if the normalized form has a traversal segment, an
absolute form, or a hidden segment, validation yields an INVALID_PATH
error. -/
theorem validateEmbryoPath_rejects (s : Str)
    (h : strL ".." ∈ pySplit '/' (normalizedEmbryoPath s) ∨
        isAbsoluteForm (normalizedEmbryoPath s) = true ∨
        ∃ part ∈ pySplit '/' (normalizedEmbryoPath s),
          part ≠ [] ∧ part.head? = some '.') :
    ∃ e, validateEmbryoPath s = .error e ∧ e.isInvalidPath = true := by
  by_cases hs : s = []
  · exfalso
    subst hs
    revert h
    decide
  · by_cases h1 : containsSub (strL "..") (normalizedEmbryoPath s) = true
    · exact ⟨.traversal, by simp [validateEmbryoPath, hs, h1], rfl⟩
    · by_cases h2 : isAbsoluteForm (normalizedEmbryoPath s) = true
      · exact ⟨.absolute, by simp [validateEmbryoPath, hs, h1, h2], rfl⟩
      · have h3 : hasHiddenSegment (normalizedEmbryoPath s) = true := by
          rcases h with hm | habs | ⟨part, hpart, hne, hhd⟩
          · exact absurd (containsSub_of_mem_pySplit '/' _ _ hm) h1
          · exact absurd habs h2
          · simp only [hasHiddenSegment, List.any_eq_true]
            refine ⟨part, hpart, ?_⟩
            simp [List.isEmpty_iff, hne, hhd]
        exact ⟨.hidden, by simp [validateEmbryoPath, hs, h1, h2, h3], rfl⟩

/-
Claim theorems.
-/

/-- C1: For each of the inputs "admin/../../etc", "/etc/passwd",
"C:/Windows", "..%2f..%2fetc" and ".hidden", `BirthClinic.find_template_source`
fails with a ValueError of the INVALID_PATH kind before any filesystem
effect (the result is an error for EVERY filesystem and template
configuration); and in general, after percent-decoding and backslash
normalization, any path containing a ".." segment, any absolute form
(Unix, Windows drive, UNC), and any path with a segment starting with "."
is rejected. -/
theorem C1_find_template_source_rejects_invalid_paths :
    (∀ (tn : List Str) (fs : List Str → Bool),
      findTemplateSource tn fs (strL "admin/../../etc") = .error .traversal ∧
      findTemplateSource tn fs (strL "/etc/passwd") = .error .absolute ∧
      findTemplateSource tn fs (strL "C:/Windows") = .error .absolute ∧
      findTemplateSource tn fs (strL "..%2f..%2fetc") = .error .traversal ∧
      findTemplateSource tn fs (strL ".hidden") = .error .hidden ∧
      BirthErr.traversal.isInvalidPath = true ∧
      BirthErr.absolute.isInvalidPath = true ∧
      BirthErr.hidden.isInvalidPath = true) ∧
    (∀ (s : Str) (tn : List Str) (fs : List Str → Bool),
      (strL ".." ∈ pySplit '/' (normalizedEmbryoPath s) ∨
        isAbsoluteForm (normalizedEmbryoPath s) = true ∨
        ∃ part ∈ pySplit '/' (normalizedEmbryoPath s),
          part ≠ [] ∧ part.head? = some '.') →
      ∃ e, findTemplateSource tn fs s = .error e ∧ e.isInvalidPath = true) := by
  constructor
  · intro tn fs
    refine ⟨?_, ?_, ?_, ?_, ?_, rfl, rfl, rfl⟩
    · have hv : validateEmbryoPath (strL "admin/../../etc") = .error .traversal := by decide
      simp [findTemplateSource, hv]
    · have hv : validateEmbryoPath (strL "/etc/passwd") = .error .absolute := by decide
      simp [findTemplateSource, hv]
    · have hv : validateEmbryoPath (strL "C:/Windows") = .error .absolute := by decide
      simp [findTemplateSource, hv]
    · have hv : validateEmbryoPath (strL "..%2f..%2fetc") = .error .traversal := by decide
      simp [findTemplateSource, hv]
    · have hv : validateEmbryoPath (strL ".hidden") = .error .hidden := by decide
      simp [findTemplateSource, hv]
  · intro s tn fs h
    rcases validateEmbryoPath_rejects s h with ⟨e, he, hinv⟩
    exact ⟨e, by simp [findTemplateSource, he], hinv⟩

/-- C1 witness: an instance of the general rejection clause at the concrete
input "x/.y" (a hidden segment after normalization). -/
theorem C1_find_template_source_rejects_invalid_paths_witness :
    (strL ".." ∈ pySplit '/' (normalizedEmbryoPath (strL "x/.y")) ∨
      isAbsoluteForm (normalizedEmbryoPath (strL "x/.y")) = true ∨
      ∃ part ∈ pySplit '/' (normalizedEmbryoPath (strL "x/.y")),
        part ≠ [] ∧ part.head? = some '.') ∧
    ∃ e, findTemplateSource [strL "Standard"] (fun _ => true) (strL "x/.y")
        = .error e ∧ e.isInvalidPath = true := by
  refine ⟨?_, ?_⟩
  · right; right
    exact ⟨strL ".y", by decide, by decide, by decide⟩
  · exact C1_find_template_source_rejects_invalid_paths.2 (strL "x/.y")
      [strL "Standard"] (fun _ => true)
      (Or.inr (Or.inr ⟨strL ".y", by decide, by decide, by decide⟩))

/-- C3: if a physical entry exists at the path's project-relative location
at call time, `Blueprint.is_embryo` returns false, whatever the embryo
tree and whatever any earlier cached value says: the physical-existence
check precedes the cache lookup. -/
theorem C3_is_embryo_false_on_physical (st : BPState) (p : Str)
    (h : st.physExists (physKey p) = true) : (isEmbryo st p).1 = false := by
  by_cases hp : p = []
  · simp [isEmbryo, hp]
  · simp [isEmbryo, hp, h]

/-- C3 witness: a state whose cache wrongly says true and whose tree has
the node, yet the physically present path is reported as not an embryo. -/
theorem C3_is_embryo_false_on_physical_witness :
    (BPState.physExists
        ⟨[(strL "admin", ETree.node [])], [(strL "admin", true)],
          fun r => r = strL "admin"⟩ (physKey (strL "admin")) = true) ∧
    (isEmbryo
        ⟨[(strL "admin", ETree.node [])], [(strL "admin", true)],
          fun r => r = strL "admin"⟩ (strL "admin")).1 = false := by
  refine ⟨by decide, ?_⟩
  exact C3_is_embryo_false_on_physical _ _ (by decide)

/-- C10: when the project has no .MyOS/ACLs.md file (`acl_enabled` is
false), `Blueprint._can_write_embryo` returns true for every path,
whatever roles were resolved (from MYOS_ROLES or the Users table) and
whatever the policy says: with ACL enforcement disabled, birth is never
denied on access-control grounds. -/
theorem C10_can_write_embryo_without_acls
    (aclRoles : List Str) (policy : ACLPolicy) (relPath : Str) :
    canWriteEmbryo false aclRoles policy relPath = true := rfl

/-- C4: `ACLPolicy.can_access(r, p, t)` is true exactly when the
normalized (stripped, lower-cased) role is in the policy's role set and
some rule of that role matches: the rule path is "/*", or equals the
normalized query path, or the normalized query path is the rule path plus
"/" plus a suffix, with the rule's rights containing "*" or the
normalized right.  In particular an unknown role is denied for every path
and right. -/
theorem C4_can_access_characterization :
    (∀ (pol : ACLPolicy) (role path right : Str),
      canAccess pol role path right = true ↔
        normalizeRole role ∈ pol.roles ∧
          ∃ rule ∈ (lookupKV pol.permissions (normalizeRole role)).getD [],
            (rule.path = strL "/*" ∨ rule.path = normalizePath path ∨
              ∃ suffix, normalizePath path = rule.path ++ strL "/" ++ suffix) ∧
            (strL "*" ∈ rule.rights ∨ lowerStr (pyStrip right) ∈ rule.rights)) ∧
    (∀ (pol : ACLPolicy) (role path right : Str),
      normalizeRole role ∉ pol.roles → canAccess pol role path right = false) := by
  constructor
  · intro pol role path right
    by_cases hr : pol.roles.contains (normalizeRole role) = true
    · have hmem : normalizeRole role ∈ pol.roles := List.elem_iff.mp hr
      simp only [canAccess, hr, Bool.not_true, Bool.false_eq_true, if_false,
        List.any_eq_true, Bool.and_eq_true, Bool.or_eq_true, decide_eq_true_eq,
        strStarts_iff_exists, List.append_assoc, List.elem_iff, hmem, true_and,
        or_assoc]
    · have hrf : pol.roles.contains (normalizeRole role) = false := by
        simpa using hr
      have hmem : normalizeRole role ∉ pol.roles := fun hm => hr (List.elem_iff.mpr hm)
      have hfalse : canAccess pol role path right = false := by
        simp only [canAccess, hrf]
        rfl
      simp only [hfalse, Bool.false_eq_true, false_iff, not_and]
      intro hm
      exact absurd hm hmem
  · intro pol role path right hmem
    have hrf : pol.roles.contains (normalizeRole role) = false := by
      rcases Bool.eq_false_or_eq_true (pol.roles.contains (normalizeRole role)) with h | h
      · exact absurd (List.elem_iff.mp h) hmem
      · exact h
    simp only [canAccess, hrf]
    rfl

/-- C4 witness: the unknown-role clause applied to a concrete policy. -/
theorem C4_can_access_characterization_witness :
    normalizeRole (strL "ghost") ∉
        (ACLPolicy.mk [strL "worker"]
          [(strL "worker", [PermissionRule.mk (strL "/info") [strL "read"]])]).roles ∧
    canAccess
        (ACLPolicy.mk [strL "worker"]
          [(strL "worker", [PermissionRule.mk (strL "/info") [strL "read"]])])
        (strL "ghost") (strL "/info") (strL "read") = false := by
  refine ⟨by decide, ?_⟩
  exact C4_can_access_characterization.2 _ _ _ _ (by decide)

/-- A successful `descend` returns the base extended by exactly the
nonempty parts (pathlib drops the empty components). -/
theorem descend_ok (fs : List Str → Bool) :
    ∀ (parts : List Str) (base c : List Str), descend fs base parts = some c →
      c = base ++ parts.filter (fun x => x ≠ []) := by
  intro parts
  induction parts with
  | nil =>
      intro base c h
      simp only [descend] at h
      by_cases hfs : fs base = true
      · simp only [hfs, if_true, Option.some.injEq] at h
        simp [h.symm]
      · simp [hfs] at h
  | cons p rest ih =>
      intro base c h
      simp only [descend] at h
      by_cases hp : p = []
      · simp only [hp, if_true] at h
        by_cases hfs : fs base = true
        · rw [if_pos hfs] at h
          have := ih base c h
          simpa [hp] using this
        · simp [hfs] at h
      · rw [if_neg hp] at h
        by_cases hfs : fs (base ++ [p]) = true
        · rw [if_pos hfs] at h
          have := ih (base ++ [p]) c h
          simp only [List.filter_cons, hp, decide_not, List.append_assoc] at this ⊢
          simpa [hp] using this
        · simp [hfs] at h

/-- A successful template search returns a path rooted at a configured,
well-formed template name, extended by the nonempty parts. -/
theorem searchTemplates_ok (fs : List Str → Bool) (parts : List Str) :
    ∀ (tn : List Str) (p : List Str), searchTemplates fs parts tn = .ok p →
      ∃ t ∈ tn, (t ≠ [] ∧ containsSub (strL "..") t = false ∧ '/' ∉ t) ∧
        p = t :: parts.filter (fun x => x ≠ []) := by
  intro tn
  induction tn with
  | nil => intro p h; simp [searchTemplates] at h
  | cons t ts ih =>
      intro p h
      simp only [searchTemplates] at h
      by_cases hskip : (t = [] || containsSub (strL "..") t || t.contains '/') = true
      · rw [if_pos hskip] at h
        rcases ih p h with ⟨u, hu, hprops, hp⟩
        exact ⟨u, List.mem_cons_of_mem _ hu, hprops, hp⟩
      · rw [if_neg hskip] at h
        have hprops : t ≠ [] ∧ containsSub (strL "..") t = false ∧ '/' ∉ t := by
          simp only [Bool.or_eq_true, decide_eq_true_eq, not_or] at hskip
          refine ⟨hskip.1.1, ?_, ?_⟩
          · simpa using hskip.1.2
          · intro hmem
            exact hskip.2 (List.elem_iff.mpr hmem)
        cases hd : descend fs [t] parts with
        | some c =>
            rw [hd] at h
            simp only [Except.ok.injEq] at h
            subst h
            have := descend_ok fs parts [t] c hd
            exact ⟨t, List.mem_cons_self _ _, hprops, by simpa using this⟩
        | none =>
            rw [hd] at h
            rcases ih p h with ⟨u, hu, hpr, hp⟩
            exact ⟨u, List.mem_cons_of_mem _ hu, hpr, hp⟩

/-- C2: every input on which `find_template_source` returns without
raising resolves below `templates_dir/t` for some configured template
name `t`: the result is `t` followed by segments that are nonempty, not
dot-prefixed (hence neither "." nor "..") and free of separators, so the
resolved source is a descendant (or the template directory itself) of a
configured template directory. -/
theorem C2_find_template_source_stays_in_templates
    (tn : List Str) (fs : List Str → Bool) (s : Str) (p : List Str)
    (h : findTemplateSource tn fs s = .ok p) :
    ∃ t ∈ tn, (t ≠ [] ∧ containsSub (strL "..") t = false ∧ '/' ∉ t) ∧
      ∃ segs, p = t :: segs ∧
        ∀ seg ∈ segs, seg ≠ [] ∧ seg.head? ≠ some '.' ∧ '/' ∉ seg := by
  cases hv : validateEmbryoPath s with
  | error e => simp [findTemplateSource, hv] at h
  | ok n =>
      simp only [findTemplateSource, hv] at h
      rcases validateEmbryoPath_ok hv with ⟨hs, hn, hdots, habs, hhid⟩
      rcases searchTemplates_ok fs _ tn p h with ⟨t, htmem, hprops, hp⟩
      refine ⟨t, htmem, hprops, _, hp, ?_⟩
      intro seg hseg
      have hseg2 : seg ∈ pySplit '/' (pyStripChar '/' n) ∧ seg ≠ [] := by
        have := List.mem_filter.mp hseg
        exact ⟨this.1, by simpa using this.2⟩
      have hmem : seg ∈ pySplit '/' n := mem_pySplit_of_strip '/' n seg hseg2.1
      refine ⟨hseg2.2, ?_, ?_⟩
      · intro hhd
        have : hasHiddenSegment n = true := by
          simp only [hasHiddenSegment, List.any_eq_true]
          exact ⟨seg, hmem, by simp [List.isEmpty_iff, hseg2.2, hhd]⟩
        rw [this] at hhid
        exact Bool.true_eq_false.mp hhid
      · exact sep_not_mem_of_mem_pySplit '/' n seg hmem

/-- C2 witness: a concrete accepted input, with the conclusion instantiated
through the theorem. -/
theorem C2_find_template_source_stays_in_templates_witness :
    findTemplateSource [strL "Standard"]
        (fun q => q = [strL "Standard"] || q = [strL "Standard", strL "admin"])
        (strL "admin") = .ok [strL "Standard", strL "admin"] ∧
    ∃ t ∈ [strL "Standard"],
      (t ≠ [] ∧ containsSub (strL "..") t = false ∧ '/' ∉ t) ∧
      ∃ segs, [strL "Standard", strL "admin"] = t :: segs ∧
        ∀ seg ∈ segs, seg ≠ [] ∧ seg.head? ≠ some '.' ∧ '/' ∉ seg := by
  refine ⟨by decide, ?_⟩
  exact C2_find_template_source_stays_in_templates [strL "Standard"]
    (fun q => q = [strL "Standard"] || q = [strL "Standard", strL "admin"])
    (strL "admin") [strL "Standard", strL "admin"] (by decide)

/-- C9 counterexample: with extraction directory /tmp/pkg, the zip entry
"../pkgevil/f" resolves to /tmp/pkgevil/f, which lies outside the
extraction directory, yet extraction accepts it: the string-prefix test
"/tmp/pkgevil/f".startswith("/tmp/pkg") passes.  This refutes the claim
that every entry resolving outside the destination is rejected. -/
theorem C9_zip_prefix_counterexample :
    safeExtractZip [strL "tmp", strL "pkg"] [strL "../pkgevil/f"]
        = .ok [[strL "tmp", strL "pkgevil", strL "f"]] ∧
    insideDir [strL "tmp", strL "pkg"] [strL "tmp", strL "pkgevil", strL "f"]
        = false := ⟨by decide, by decide⟩

/-- C9 (amended): zip import rejects (raising, extracting nothing further)
every entry whose name begins with "/" or "\x5c" or contains ":", and every
entry whose resolved destination path does not extend the destination
path AS A STRING (a string-prefix check, not a directory-containment
check); in particular a zip containing an entry named "../evil.txt" is
rejected. -/
theorem C9_zip_rejections :
    (∀ (dest : List Str) (name : Str) (rest : List Str),
      (strStarts (strL "/") name = true ∨ strStarts (strL "\\") name = true ∨
        ':' ∈ name) →
      safeExtractZip dest (name :: rest) = .error .unsafeName) ∧
    (∀ (dest : List Str) (name : Str) (rest : List Str),
      strStarts (strL "/") name = false → strStarts (strL "\\") name = false →
      ':' ∉ name →
      strStarts (renderAbs (resolveSegs dest))
          (renderAbs (resolveSegs (dest ++ pySplit '/' name))) = false →
      safeExtractZip dest (name :: rest) = .error .traversal) ∧
    safeExtractZip [strL "tmp", strL "target"] [strL "../evil.txt"]
        = .error .traversal := by
  refine ⟨?_, ?_, by decide⟩
  · intro dest name rest h
    have hcond : (strStarts (strL "/") name || strStarts (strL "\\") name
        || name.contains ':') = true := by
      rcases h with h | h | h
      · simp [h]
      · simp [h]
      · have hc : name.contains ':' = true := List.elem_iff.mpr h
        rw [hc]
        simp
    simp only [safeExtractZip]
    rw [hcond]
    rfl
  · intro dest name rest h1 h2 h3 h4
    have h3f : name.contains ':' = false := by
      rcases Bool.eq_false_or_eq_true (name.contains ':') with h | h
      · exact absurd (List.elem_iff.mp h) h3
      · exact h
    have hcond : (strStarts (strL "/") name || strStarts (strL "\\") name
        || name.contains ':') = false := by
      rw [h1, h2, h3f]
      rfl
    simp only [safeExtractZip]
    rw [hcond, h4]
    rfl

/-- C9 witness: the unsafe-name clause of the amended theorem at a
concrete entry name containing a colon. -/
theorem C9_zip_rejections_witness :
    (strStarts (strL "/") (strL "C:evil") = true ∨
      strStarts (strL "\\") (strL "C:evil") = true ∨ ':' ∈ strL "C:evil") ∧
    safeExtractZip [strL "tmp", strL "target"] [strL "C:evil"]
        = .error .unsafeName := by
  refine ⟨Or.inr (Or.inr (by decide)), ?_⟩
  exact C9_zip_rejections.1 [strL "tmp", strL "target"] (strL "C:evil") []
    (Or.inr (Or.inr (by decide)))

/-- Node names distribute over list append. -/
theorem nodeNames_append : ∀ a b : List (Str × ETree),
    nodeNames (a ++ b) = nodeNames a ++ nodeNames b := by
  intro a b
  induction a with
  | nil => simp [nodeNames]
  | cons hd tl ih =>
      obtain ⟨n, t⟩ := hd
      cases t with
      | node cs => simp [nodeNames, ih]

/-- A name in an updated tree list comes from the original list, the
updated key, or the new subtree. -/
theorem nodeNames_setKV : ∀ (a : List (Str × ETree)) (k : Str) (v : ETree) (name : Str),
    name ∈ nodeNames (setKV a k v) →
      name ∈ nodeNames a ∨ name = k ∨ name ∈ nodeNamesT v := by
  intro a k v name
  induction a with
  | nil =>
      intro h
      cases v with
      | node cs =>
          simp only [setKV, nodeNames, nodeNamesT, List.append_nil] at h ⊢
          rcases List.mem_cons.mp h with rfl | h
          · exact Or.inr (Or.inl rfl)
          · exact Or.inr (Or.inr h)
  | cons hd tl ih =>
      obtain ⟨k1, t1⟩ := hd
      intro h
      by_cases hk : k1 = k
      · simp only [setKV, if_pos hk] at h
        cases v with
        | node cs =>
            cases t1 with
            | node cs1 =>
                simp only [nodeNames, nodeNamesT] at h ⊢
                rcases List.mem_cons.mp h with rfl | h
                · exact Or.inr (Or.inl hk)
                · rcases List.mem_append.mp h with h | h
                  · exact Or.inr (Or.inr h)
                  · exact Or.inl (List.mem_cons_of_mem _ (List.mem_append_right _ h))
      · simp only [setKV, if_neg hk] at h
        cases t1 with
        | node cs1 =>
            simp only [nodeNames] at h ⊢
            rcases List.mem_cons.mp h with rfl | h
            · exact Or.inl (List.mem_cons_self _ _)
            · rcases List.mem_append.mp h with h | h
              · exact Or.inl (List.mem_cons_of_mem _ (List.mem_append_left _ h))
              · rcases ih h with h | h
                · exact Or.inl (List.mem_cons_of_mem _ (List.mem_append_right _ h))
                · exact Or.inr h

/-- Names below a key present in a tree list are names of the list. -/
theorem nodeNames_lookupKV : ∀ (a : List (Str × ETree)) (k : Str) (t : ETree),
    lookupKV a k = some t → ∀ name ∈ nodeNamesT t, name ∈ nodeNames a := by
  intro a k t
  induction a with
  | nil => intro h; simp [lookupKV] at h
  | cons hd tl ih =>
      obtain ⟨k1, t1⟩ := hd
      intro h name hname
      by_cases hk : k1 = k
      · simp only [lookupKV, if_pos hk, Option.some.injEq] at h
        subst h
        cases t1 with
        | node cs1 =>
            simp only [nodeNamesT] at hname
            simp only [nodeNames]
            exact List.mem_cons_of_mem _ (List.mem_append_left _ hname)
      · simp only [lookupKV, if_neg hk] at h
        cases t1 with
        | node cs1 =>
            simp only [nodeNames]
            exact List.mem_cons_of_mem _ (List.mem_append_right _ (ih h name hname))

/-- Merging introduces no new names: every name of the merged tree comes
from one of the two inputs. -/
theorem nodeNames_mergeInto : ∀ (a b : List (Str × ETree)) (name : Str),
    name ∈ nodeNames (mergeInto a b) → name ∈ nodeNames a ∨ name ∈ nodeNames b := by
  intro a b
  induction a, b using mergeInto.induct with
  | case1 combined => intro name h; simp only [mergeInto] at h; exact Or.inl h
  | case2 combined k vcs rest combined1 ih1 ih2 =>
      intro name h
      simp only [mergeInto] at h
      rcases ih2 name h with h | h
      · simp only [combined1] at h
        cases hlk : lookupKV combined k with
        | some w =>
            cases w with
            | node wcs =>
                rw [hlk] at h
                rcases nodeNames_setKV _ _ _ _ h with h | h | h
                · exact Or.inl h
                · subst h
                  exact Or.inr (by simp [nodeNames])
                · simp only [nodeNamesT] at h
                  rcases ih1 wcs name h with h | h
                  · exact Or.inl (nodeNames_lookupKV _ _ _ hlk name h)
                  · exact Or.inr (by
                      simp only [nodeNames, List.mem_cons, List.mem_append]
                      exact Or.inr (Or.inl h))
        | none =>
            rw [hlk] at h
            rw [nodeNames_append] at h
            rcases List.mem_append.mp h with h | h
            · exact Or.inl h
            · simp only [nodeNames, List.append_nil] at h
              rcases List.mem_cons.mp h with rfl | h
              · exact Or.inr (by simp [nodeNames])
              · exact Or.inr (by
                  simp only [nodeNames, List.mem_cons, List.mem_append]
                  exact Or.inr (Or.inl h))
      · exact Or.inr (by
          simp only [nodeNames, List.mem_cons, List.mem_append]
          exact Or.inr (Or.inr h))

/-- Every name in a scanned template tree is the name of a directory entry
(files contribute nothing at any depth). -/
theorem loadList_names : ∀ (entries : List FSEntry) (name : Str),
    name ∈ nodeNames (loadList entries) → name ∈ dirNames entries := by
  intro entries
  induction entries using loadList.induct with
  | case1 => intro name h; simp [loadList, nodeNames] at h
  | case2 n d cs rest ih1 ih2 =>
      intro name h
      simp only [loadList] at h
      by_cases hd : d = true
      · rw [if_pos hd] at h
        simp only [List.singleton_append, nodeNames] at h
        simp only [dirNames, if_pos hd]
        rcases List.mem_cons.mp h with rfl | h
        · exact List.mem_append_left _ (List.mem_cons_self _ _)
        · rcases List.mem_append.mp h with h | h
          · exact List.mem_append_left _ (List.mem_cons_of_mem _ (ih1 name h))
          · exact List.mem_append_right _ (ih2 name h)
      · rw [if_neg hd] at h
        simp only [List.nil_append] at h
        simp only [dirNames, if_neg hd, List.nil_append]
        exact ih2 name h

/-- Every name of the merged embryo tree comes from the directory scan of
one of the present template directories. -/
theorem loadEmbryoTree_names_aux :
    ∀ (tpls : List (Option (List FSEntry))) (acc : List (Str × ETree)) (name : Str),
      name ∈ nodeNames (tpls.foldl
        (fun combined t =>
          match t with
          | none => combined
          | some entries => mergeInto combined (loadList entries)) acc) →
      name ∈ nodeNames acc ∨
        ∃ entries, some entries ∈ tpls ∧ name ∈ nodeNames (loadList entries) := by
  intro tpls
  induction tpls with
  | nil => intro acc name h; exact Or.inl h
  | cons t ts ih =>
      intro acc name h
      simp only [List.foldl_cons] at h
      rcases ih _ name h with h2 | ⟨entries, hmem, hname⟩
      · cases t with
        | none => exact Or.inl h2
        | some entries =>
            rcases nodeNames_mergeInto _ _ _ h2 with h3 | h3
            · exact Or.inl h3
            · exact Or.inr ⟨entries, List.mem_cons_self _ _, h3⟩
      · exact Or.inr ⟨entries, List.mem_cons_of_mem _ hmem, hname⟩

/-- C6 counterexample: a template directory containing a hidden
subdirectory ".hidden" produces an embryo-tree node named ".hidden": the
scan does NOT skip hidden names, refuting the claim that no node of the
merged embryo tree has a name beginning with ".". -/
theorem C6_hidden_names_counterexample :
    strL ".hidden" ∈
        nodeNames (loadEmbryoTree [some [FSEntry.mk (strL ".hidden") true []]]) ∧
    (strL ".hidden").head? = some '.' := by
  constructor
  · simp [loadEmbryoTree, List.foldl, mergeInto, loadList, lookupKV, nodeNames]
  · decide

/-- C6 (amended): for every template directory the embryo-tree scan
enumerates only subdirectories, skipping files at every depth, so every
node name of the merged embryo tree is the name of a subdirectory of some
configured template; hidden (dot-prefixed) directory names are NOT
skipped and become nodes like any other. -/
theorem C6_template_scan_enumerates_directories :
    (∀ (entries : List FSEntry) (name : Str),
      name ∈ nodeNames (loadList entries) → name ∈ dirNames entries) ∧
    (∀ (tpls : List (Option (List FSEntry))) (name : Str),
      name ∈ nodeNames (loadEmbryoTree tpls) →
      ∃ entries, some entries ∈ tpls ∧ name ∈ dirNames entries) := by
  refine ⟨loadList_names, ?_⟩
  intro tpls name h
  rcases loadEmbryoTree_names_aux tpls [] name h with h2 | ⟨entries, hmem, hname⟩
  · simp [nodeNames] at h2
  · exact ⟨entries, hmem, loadList_names entries name hname⟩

/-- C6 witness: the directory-only clause of the amended theorem at a
concrete listing containing a file. -/
theorem C6_template_scan_enumerates_directories_witness :
    strL "admin" ∈ nodeNames (loadList
        [FSEntry.mk (strL "admin") true [], FSEntry.mk (strL "f.txt") false []]) ∧
    strL "admin" ∈ dirNames
        [FSEntry.mk (strL "admin") true [], FSEntry.mk (strL "f.txt") false []] := by
  have h : strL "admin" ∈ nodeNames (loadList
      [FSEntry.mk (strL "admin") true [], FSEntry.mk (strL "f.txt") false []]) := by
    simp [loadList, nodeNames]
  exact ⟨h, C6_template_scan_enumerates_directories.1 _ _ h⟩

/-- While no further line is a header (or header-form property line) and
every line is malformed as content, the parser state keeps an empty
result and empty items, so the final result is empty. -/
theorem parseStream_all_bad_aux :
    ∀ (lines : List Str) (st : PState), st.result = [] → st.items = [] →
      (∀ l ∈ lines,
        isPropLine (pyStrip (rstripChar '\n' l)) = false ∧
        isHeaderLine (pyStrip (rstripChar '\n' l)) = false ∧
        parseLine (pyStrip (rstripChar '\n' l)) = none) →
      finalizeInto (lines.foldl processLine st) = [] := by
  intro lines
  induction lines with
  | nil =>
      intro st h1 h2 _
      simp only [List.foldl_nil]
      cases hc : st.cur with
      | none => simp [finalizeInto, hc, h1]
      | some sec => simp [finalizeInto, hc, h1, h2]
  | cons l ls ih =>
      intro st h1 h2 hall
      have hl := hall l (List.mem_cons_self _ _)
      have hrec := fun x hx => hall x (List.mem_cons_of_mem _ hx)
      simp only [List.foldl_cons]
      have hst : (processLine st l).result = [] ∧ (processLine st l).items = [] := by
        simp only [processLine, hl.1, hl.2.1, Bool.false_eq_true, if_false]
        cases hc : st.cur with
        | none => simp [hc, h1, h2]
        | some sec =>
            by_cases hb : pyStrip (rstripChar '\n' l) = []
            · simp [hc, hb, finalizeInto, h1, h2]
            · simp [hc, hb, hl.2.2, finalizeInto, h1, h2]
      exact ih _ hst.1 hst.2 hrec

/-- C7 counterexample: a section whose only content line is malformed is
ABSENT from the parse result (the result is the empty dict and looking
the section up yields nothing); the claim that the result holds an empty
payload for the section does not match the code. -/
theorem C7_malformed_section_counterexample :
    parseStream [strL "# Sec", strL "bad line here"] = [] ∧
    lookupKV (parseStream [strL "# Sec", strL "bad line here"]) (strL "Sec")
        = none := ⟨by decide, by decide⟩

/-- C7 (amended): `parse_stream` is a total function over its input lines
(it halts on every finite input, and the model is built from total string
operations only, mirroring the fact that the Python code raises no
exception); a section whose content lines are all malformed — and after
which no further header opens a section — contributes NO entry to the
result: the section is absent, rather than present with an empty payload,
and no exception occurs. -/
theorem C7_parser_totality_and_malformed_sections
    (header : Str) (lines : List Str)
    (hhead : isHeaderLine (pyStrip (rstripChar '\n' header)) = true)
    (hprop : isPropLine (pyStrip (rstripChar '\n' header)) = false)
    (hall : ∀ l ∈ lines,
      isPropLine (pyStrip (rstripChar '\n' l)) = false ∧
      isHeaderLine (pyStrip (rstripChar '\n' l)) = false ∧
      parseLine (pyStrip (rstripChar '\n' l)) = none) :
    parseStream (header :: lines) = [] := by
  simp only [parseStream, List.foldl_cons]
  apply parseStream_all_bad_aux lines _ ?_ ?_ hall
  · simp [processLine, hprop, hhead, finalizeInto]
  · simp [processLine, hprop, hhead]

/-- C7 witness: the amended theorem at the concrete malformed input. -/
theorem C7_parser_totality_and_malformed_sections_witness :
    isHeaderLine (pyStrip (rstripChar '\n' (strL "# Sec"))) = true ∧
    parseStream [strL "# Sec", strL "bad line here"] = [] := by
  refine ⟨by decide, ?_⟩
  exact C7_parser_totality_and_malformed_sections (strL "# Sec") [strL "bad line here"]
    (by decide) (by decide) (by decide)

/-- Assignment into a dict never yields the empty dict. -/
theorem setKV_ne_nil {α : Type} : ∀ (d : List (Str × α)) (k : Str) (v : α),
    setKV d k v ≠ [] := by
  intro d k v
  cases d with
  | nil => simp [setKV]
  | cons hd tl =>
      obtain ⟨k1, v1⟩ := hd
      simp only [setKV]
      by_cases hk : k1 = k <;> simp [hk]

/-- Assignment into a dict makes the key map to the assigned value. -/
theorem lookupKV_setKV {α : Type} : ∀ (d : List (Str × α)) (k : Str) (v : α),
    lookupKV (setKV d k v) k = some v := by
  intro d k v
  induction d with
  | nil => simp [setKV, lookupKV]
  | cons hd tl ih =>
      obtain ⟨k1, v1⟩ := hd
      simp only [setKV]
      by_cases hk : k1 = k
      · simp [lookupKV, hk]
      · simp [lookupKV, hk, ih]

/-- C8 counterexample: a direct child whose inherit status for the section
is "not" (neither "fix" nor "dynamic"/default) IS updated by
`propagate_config`: its result status is success and its Config.md is
rewritten.  This refutes the clause that only children with status
"dynamic" (or default) are updated. -/
theorem C8_propagate_updates_not_counterexample :
    getInheritStatus
        (Proj.mk (strL "child1")
          (some (strL "# Templates\ninherit: not\nStandard\n")) [])
        (strL "Templates") = strL "not" ∧
    (propagateConfig
        (Proj.mk (strL "parent") (some (strL "# Templates\nStandard\n")) [])
        [Proj.mk (strL "child1")
          (some (strL "# Templates\ninherit: not\nStandard\n")) []]
        (strL "Templates") false).1 = [(strL "child1", PropStatus.ok)] ∧
    (propagateConfig
        (Proj.mk (strL "parent") (some (strL "# Templates\nStandard\n")) [])
        [Proj.mk (strL "child1")
          (some (strL "# Templates\ninherit: not\nStandard\n")) []]
        (strL "Templates") false).2.map Proj.configFile
      ≠ [some (strL "# Templates\ninherit: not\nStandard\n")] :=
  ⟨by decide, by decide, by decide⟩

/-- C8 (amended): when the parent configuration contains the section, a
direct child whose inherit status for it is "fix" is reported as
`skipped_fix` and left untouched (its record, including the byte content
of its Config.md, is unchanged); every child whose status is NOT "fix" —
"dynamic", default, but also "not" — is updated: its `config_data` gets
the parent's payload for the section and its Config.md is rewritten. -/
theorem C8_propagate_config_fix_and_update
    (parent : Proj) (children : List Proj) (sectionName : Str) (dryRun : Bool)
    (child : Proj) (hmem : child ∈ children) (pl : Payload)
    (hsec : lookupKV (loadConfigData parent).configData sectionName = some pl) :
    (getInheritStatus child sectionName = strL "fix" →
      (child.path, PropStatus.skippedFix) ∈
        (propagateConfig parent children sectionName dryRun).1 ∧
      child ∈ (propagateConfig parent children sectionName dryRun).2) ∧
    (getInheritStatus child sectionName ≠ strL "fix" → payloadFalsy pl = false →
      dryRun = false →
      ∃ c2 ∈ (propagateConfig parent children sectionName dryRun).2,
        c2.path = child.path ∧
        lookupKV c2.configData sectionName = some pl ∧
        c2.configFile = some (renderConfig
          (setKV (loadConfigData child).configData sectionName pl))) := by
  constructor
  · intro hfix
    simp only [propagateConfig, hsec]
    constructor
    · rw [List.map_map]
      have := List.mem_map_of_mem
        (f := fun c => (Prod.fst ∘ fun child =>
          if getInheritStatus child sectionName = strL "fix" then
            ((child.path, PropStatus.skippedFix), child)
          else
            let r := updateFromParent child (loadConfigData parent).configData
                sectionName dryRun
            ((child.path, r.1), r.2)) c) hmem
      simpa [hfix] using this
    · rw [List.map_map]
      have := List.mem_map_of_mem
        (f := fun c => (Prod.snd ∘ fun child =>
          if getInheritStatus child sectionName = strL "fix" then
            ((child.path, PropStatus.skippedFix), child)
          else
            let r := updateFromParent child (loadConfigData parent).configData
                sectionName dryRun
            ((child.path, r.1), r.2)) c) hmem
      simpa [hfix] using this
  · intro hnotfix hfalsy hdry
    subst hdry
    simp only [propagateConfig, hsec]
    have hupd : updateFromParent child (loadConfigData parent).configData
        sectionName false =
        (PropStatus.ok,
          { loadConfigData child with
            configData := setKV (loadConfigData child).configData sectionName pl,
            configFile := some (renderConfig
              (setKV (loadConfigData child).configData sectionName pl)) }) := by
      simp only [updateFromParent, hsec, hfalsy, Bool.false_eq_true, if_false,
        setKV_ne_nil, ite_false]
    refine ⟨{ loadConfigData child with
        configData := setKV (loadConfigData child).configData sectionName pl,
        configFile := some (renderConfig
          (setKV (loadConfigData child).configData sectionName pl)) }, ?_, ?_, ?_, ?_⟩
    · rw [List.map_map]
      have := List.mem_map_of_mem
        (f := fun c => (Prod.snd ∘ fun child =>
          if getInheritStatus child sectionName = strL "fix" then
            ((child.path, PropStatus.skippedFix), child)
          else
            let r := updateFromParent child (loadConfigData parent).configData
                sectionName false
            ((child.path, r.1), r.2)) c) hmem
      simpa [hnotfix, hupd] using this
    · simp [loadConfigData]
    · exact lookupKV_setKV _ _ _
    · rfl

/-- C8 witness: a concrete fix child is skipped and left byte-identical. -/
theorem C8_propagate_config_fix_and_update_witness :
    (Proj.mk (strL "childF")
        (some (strL "# Templates\ninherit: fix\nOther\n")) [])
      ∈ [Proj.mk (strL "childF")
        (some (strL "# Templates\ninherit: fix\nOther\n")) []] ∧
    getInheritStatus
        (Proj.mk (strL "childF")
          (some (strL "# Templates\ninherit: fix\nOther\n")) [])
        (strL "Templates") = strL "fix" ∧
    (strL "childF", PropStatus.skippedFix) ∈
      (propagateConfig
        (Proj.mk (strL "parent") (some (strL "# Templates\nStandard\n")) [])
        [Proj.mk (strL "childF")
          (some (strL "# Templates\ninherit: fix\nOther\n")) []]
        (strL "Templates") false).1 ∧
    (Proj.mk (strL "childF")
        (some (strL "# Templates\ninherit: fix\nOther\n")) [])
      ∈ (propagateConfig
        (Proj.mk (strL "parent") (some (strL "# Templates\nStandard\n")) [])
        [Proj.mk (strL "childF")
          (some (strL "# Templates\ninherit: fix\nOther\n")) []]
        (strL "Templates") false).2 := by
  refine ⟨by decide, by decide, ?_⟩
  have h := (C8_propagate_config_fix_and_update
    (Proj.mk (strL "parent") (some (strL "# Templates\nStandard\n")) [])
    [Proj.mk (strL "childF")
      (some (strL "# Templates\ninherit: fix\nOther\n")) []]
    (strL "Templates") false
    (Proj.mk (strL "childF")
      (some (strL "# Templates\ninherit: fix\nOther\n")) [])
    (by decide)
    (Payload.plist [Elem.estr (strL "Standard")])
    (by decide)).1 (by decide)
  exact ⟨h.1, h.2⟩

/-- Skipping exactly the length of a prefix resumes scanning after it. -/
theorem pyReplaceGo_skip (pat repl : Str) :
    ∀ (x s : Str), pyReplaceGo pat repl (x ++ s) x.length = pyReplaceGo pat repl s 0 := by
  intro x
  induction x with
  | nil => intro s; rfl
  | cons c cs ih =>
      intro s
      simp only [List.cons_append, List.length_cons, pyReplaceGo]
      exact ih s

/-- Replacement steps over a leading run that cannot start a match
(no character of it equals the pattern's first character). -/
theorem pyReplaceGo_not_head (pat repl : Str) (hc : Char)
    (hhead : pat.head? = some hc) :
    ∀ (pre s : Str), hc ∉ pre →
      pyReplaceGo pat repl (pre ++ s) 0 = pre ++ pyReplaceGo pat repl s 0 := by
  intro pre
  induction pre with
  | nil => intro s _; rfl
  | cons c cs ih =>
      intro s hmem
      have h1 : ¬(hc = c) ∧ hc ∉ cs := by
        simpa [List.mem_cons, not_or] using hmem
      cases pat with
      | nil => simp at hhead
      | cons p0 pt =>
          have hp0 : p0 = hc := by simpa using hhead
          have hbeq : (p0 == c) = false := by
            rw [hp0]
            exact beq_eq_false_iff_ne.mpr h1.1
          have hstart : strStarts (p0 :: pt) (c :: (cs ++ s)) = false := by
            simp [strStarts, hbeq]
          simp only [List.cons_append, pyReplaceGo, List.append_eq, hstart,
            Bool.false_and, Bool.false_eq_true, if_false]
          rw [ih s h1.2]

/-- Replacement fires on an occurrence at the head of the string. -/
theorem pyReplaceGo_match (pat repl : Str) (hne : pat ≠ []) (s : Str) :
    pyReplaceGo pat repl (pat ++ s) 0 = repl ++ pyReplaceGo pat repl s 0 := by
  cases pat with
  | nil => exact absurd rfl hne
  | cons p0 pt =>
      have hstart : strStarts (p0 :: pt) (p0 :: (pt ++ s)) = true := by
        have := (strStarts_iff_exists (p0 :: pt) ((p0 :: pt) ++ s)).mpr ⟨s, rfl⟩
        simpa using this
      simp only [List.cons_append, pyReplaceGo, List.append_eq, hstart,
        List.isEmpty_cons, Bool.not_false, Bool.and_self, if_true,
        List.length_cons, Nat.succ_sub_one]
      rw [pyReplaceGo_skip]

/-- Replacement is the identity when the pattern does not occur at all. -/
theorem pyReplaceGo_id_of_not_contains (pat repl : Str) :
    ∀ s, containsSub pat s = false → pyReplaceGo pat repl s 0 = s := by
  intro s
  induction s with
  | nil => intro _; rfl
  | cons c rest ih =>
      intro h
      have h2 : strStarts pat (c :: rest) = false ∧ containsSub pat rest = false := by
        simpa [containsSub] using h
      simp only [pyReplaceGo, h2.1, Bool.false_and, Bool.false_eq_true, if_false]
      rw [ih h2.2]

/-- A pattern whose first character does not occur in the string does not
occur in the string. -/
theorem containsSub_eq_false_of_head_not_mem (pat s : Str) (hc : Char)
    (hhead : pat.head? = some hc) (hmem : hc ∉ s) : containsSub pat s = false := by
  rcases Bool.eq_false_or_eq_true (containsSub pat s) with h | h
  swap
  · exact h
  · exfalso
    apply hmem
    apply mem_of_containsSub h
    cases pat with
    | nil => simp at hhead
    | cons p0 pt =>
        have : p0 = hc := by simpa using hhead
        rw [← this]
        exact List.mem_cons_self _ _

/-- C5 counterexample: a rule path carrying the token as "{FOLDER}" is
detected (case-insensitively) but NOT replaced: the expanded rule path
still contains the token and does not contain the role name.  This
refutes the claim that the token is replaced in any letter case. -/
theorem C5_expand_rules_upper_counterexample :
    expandRules (strL "admin") [(strL "/{FOLDER}/", [strL "read"])]
        = [(strL "/{FOLDER}", [strL "read"])] ∧
    containsSub (strL "{folder}") (lowerStr (strL "/{FOLDER}")) = true ∧
    containsSub (strL "admin") (strL "/{FOLDER}") = false :=
  ⟨by decide, by decide, by decide⟩

/-- C5 (amended): rule expansion replaces only the exact spellings
{Folder} and {folder}.  A rule path containing neither exact spelling is
emitted with its path merely normalized, even when it carries the token
in another letter case such as {FOLDER}; a rule path of the shape
pre{Folder}post or pre{folder}post (with no other braces around and a
brace-free role name) has that occurrence replaced by the role name
before normalization. -/
theorem C5_expand_rules_exact_spellings :
    (∀ (role path : Str) (rights : List Str),
      containsSub (strL "{Folder}") path = false →
      containsSub (strL "{folder}") path = false →
      expandRules role [(path, rights)] = [(normalizePath path, rights)]) ∧
    (∀ (role pre post : Str) (rights : List Str),
      '{' ∉ pre → '{' ∉ post → '{' ∉ role →
      expandRules role [(pre ++ strL "{Folder}" ++ post, rights)]
        = [(normalizePath (pre ++ role ++ post), rights)]) ∧
    (∀ (role pre post : Str) (rights : List Str),
      '{' ∉ pre → '{' ∉ post → '{' ∉ role → 'F' ∉ pre → 'F' ∉ post →
      expandRules role [(pre ++ strL "{folder}" ++ post, rights)]
        = [(normalizePath (pre ++ role ++ post), rights)]) := by
  have key : ∀ (tok : Str), tok.head? = some '{' → tok ≠ [] →
      ∀ (pre post role : Str), '{' ∉ pre → '{' ∉ post →
        pyReplaceGo tok role (pre ++ tok ++ post) 0 = pre ++ role ++ post := by
    intro tok hhd hne pre post role hpre hpost
    rw [List.append_assoc]
    rw [pyReplaceGo_not_head tok role '{' hhd pre (tok ++ post) hpre]
    rw [pyReplaceGo_match tok role hne post]
    rw [pyReplaceGo_id_of_not_contains tok role post
      (containsSub_eq_false_of_head_not_mem tok post '{' hhd hpost)]
    rw [List.append_assoc]
  have detect : ∀ (tok : Str), lowerStr tok = strL "{folder}" →
      ∀ (pre post : Str),
        containsSub (strL "{folder}") (lowerStr (pre ++ tok ++ post)) = true := by
    intro tok hl pre post
    have hl2 : List.map Char.toLower tok = strL "{folder}" := hl
    have heq : lowerStr (pre ++ tok ++ post)
        = lowerStr pre ++ strL "{folder}" ++ lowerStr post := by
      simp only [lowerStr, List.map_append]
      rw [hl2]
    exact (containsSub_iff_exists _ _).mpr ⟨lowerStr pre, lowerStr post, heq⟩
  refine ⟨?_, ?_, ?_⟩
  · intro role path rights hF hf
    by_cases hd : containsSub (strL "{folder}") (lowerStr path) = true
    · simp only [expandRules, List.foldl_cons, List.foldl_nil, lookupKV, pyReplace,
        hd, eq_self_iff_true, if_true, List.nil_append]
      rw [pyReplaceGo_id_of_not_contains _ _ path hF]
      rw [pyReplaceGo_id_of_not_contains _ _ path hf]
    · have hdf : containsSub (strL "{folder}") (lowerStr path) = false := by
        simpa using hd
      simp only [expandRules, List.foldl_cons, List.foldl_nil, lookupKV, hdf,
        Bool.false_eq_true, if_false, List.nil_append]
  · intro role pre post rights hpre hpost hrole
    have hd := detect (strL "{Folder}") (by decide) pre post
    have hall : '{' ∉ pre ++ role ++ post := by
      intro hmem
      rcases List.mem_append.mp hmem with hmem | hmem
      · rcases List.mem_append.mp hmem with h | h
        · exact hpre h
        · exact hrole h
      · exact hpost hmem
    simp only [expandRules, List.foldl_cons, List.foldl_nil, lookupKV, pyReplace,
      hd, eq_self_iff_true, if_true, List.nil_append]
    rw [key (strL "{Folder}") (by decide) (by decide) pre post role hpre hpost]
    rw [pyReplaceGo_id_of_not_contains _ _ _
      (containsSub_eq_false_of_head_not_mem (strL "{folder}") _ '{' (by decide) hall)]
  · intro role pre post rights hpre hpost hrole hFpre hFpost
    have hd := detect (strL "{folder}") (by decide) pre post
    have hnc : containsSub (strL "{Folder}") (pre ++ strL "{folder}" ++ post)
        = false := by
      rcases Bool.eq_false_or_eq_true
        (containsSub (strL "{Folder}") (pre ++ strL "{folder}" ++ post)) with h | h
      swap
      · exact h
      · exfalso
        have hFm := mem_of_containsSub h (show 'F' ∈ strL "{Folder}" by decide)
        rcases List.mem_append.mp hFm with hm | hm
        · rcases List.mem_append.mp hm with hm2 | hm2
          · exact hFpre hm2
          · exact absurd hm2 (by decide)
        · exact hFpost hm
    simp only [expandRules, List.foldl_cons, List.foldl_nil, lookupKV, pyReplace,
      hd, eq_self_iff_true, if_true, List.nil_append]
    rw [pyReplaceGo_id_of_not_contains _ _ _ hnc]
    rw [key (strL "{folder}") (by decide) (by decide) pre post role hpre hpost]

/-- C5 witness: the exact-spelling clause at a concrete rule, replacing
{Folder} with the role "admin". -/
theorem C5_expand_rules_exact_spellings_witness :
    ('{' ∉ strL "/" ∧ '{' ∉ strL "admin") ∧
    expandRules (strL "admin")
        [(strL "/" ++ strL "{Folder}" ++ strL "/", [strL "read"])]
      = [(normalizePath (strL "/" ++ strL "admin" ++ strL "/"), [strL "read"])] := by
  refine ⟨⟨by decide, by decide⟩, ?_⟩
  exact C5_expand_rules_exact_spellings.2.1 (strL "admin") (strL "/") (strL "/")
    [strL "read"] (by decide) (by decide) (by decide)

/-
Concrete evaluations of the embedded operations, mirroring behaviors of
the Python source (and of its unit tests) on small inputs.
-/

example : pySplit '/' (strL "a//b") = [strL "a", [], strL "b"] := by decide

example : pyStrip (strL "  ab ") = strL "ab" := by decide

example : pyReplace (strL "%2f") (strL "/") (strL "..%2f..%2fetc") = strL "../../etc" := by
  decide

example : pyUnquote (strL "a%20b%zz") = strL "a b%zz" := by decide

example : containsSub (strL "..") (strL "a../b") = true := by decide

example : pyFindSub (strL ": ") (strL "ab: c") = 2 := by decide

example : splitOnceSub (strL ": ") (strL "k: v: w") = (strL "k", strL "v: w") := by decide

example :
    (isEmbryo ⟨[(strL "admin", ETree.node [])], [], fun _ => false⟩ (strL "admin")).1
      = true := by decide

example :
    (isEmbryo ⟨[(strL "admin", ETree.node [])], [(strL "admin", true)],
        fun r => r = strL "admin"⟩ (strL "admin")).1 = false := by decide

example :
    loadList [FSEntry.mk (strL ".hidden") true [], FSEntry.mk (strL "f.txt") false []]
      = [(strL ".hidden", ETree.node [])] := by simp [loadList]

example : validateEmbryoPath (strL "admin/../../etc") = .error .traversal := by decide

example : validateEmbryoPath (strL "/etc/passwd") = .error .absolute := by decide

example : validateEmbryoPath (strL "C:/Windows") = .error .absolute := by decide

example : validateEmbryoPath (strL "..%2f..%2fetc") = .error .traversal := by decide

example : validateEmbryoPath (strL ".hidden") = .error .hidden := by decide

example : validateEmbryoPath (strL "C:\\Win") = .error .absolute := by decide

example : validateEmbryoPath (strL "kommunikation/extern") =
    .ok (strL "kommunikation/extern") := by decide

example :
    findTemplateSource [strL "Standard"]
      (fun p => p = [strL "Standard"] || p = [strL "Standard", strL "admin"])
      (strL "admin") = .ok [strL "Standard", strL "admin"] := by decide

example :
    parseStream [strL "# Templates", strL "Standard", strL "Website"]
      = [(strL "Templates", .plist [.estr (strL "Standard"), .estr (strL "Website")])] := by
  decide

example :
    parseStream [strL "# Templates", strL "Standard", strL "", strL "Website"]
      = [(strL "Templates", .plist [.estr (strL "Standard")])] := by decide

example :
    parseStream [strL "# Config", strL "#### inherit: dynamic"]
      = [(strL "Config", .pdict [(strL "inherit", [strL "dynamic"])])] := by decide

example :
    parseStream [strL "# Tags", strL "red, yellow, green"]
      = [(strL "Tags",
          .plist [.estr (strL "red"), .estr (strL "yellow"), .estr (strL "green")])] := by
  decide

example : parseStream [strL "# Sec", strL "bad line here"] = [] := by decide

example :
    safeExtractZip [strL "tmp", strL "target"] [strL "../evil.txt"]
      = .error .traversal := by decide

example :
    safeExtractZip [strL "tmp", strL "pkg"] [strL "../pkgevil/f"]
      = .ok [[strL "tmp", strL "pkgevil", strL "f"]] := by decide

example :
    insideDir [strL "tmp", strL "pkg"] [strL "tmp", strL "pkgevil", strL "f"] = false := by
  decide
